import Mathlib

/-!
Verification of the tsz time-series compression codec (Gorilla algorithm).

The development shallowly embeds the Rust sources:
  * `src/encode/std_encoder.rs`  (StdEncoder)
  * `src/decode/std_decoder.rs`  (StdDecoder)
  * `src/stream/buffered_read.rs` (BufferedReader)
Machine integers (u64, u32, u8, i32) are modelled as `Nat`/`Int` with explicit
reduction modulo `2^w` wherever the Rust code wraps.  The `BufferedWriter`
(`src/stream/buffered_write.rs`) is not part of the sources and is modelled
from the specification, as marked below.  Rust `f64` values appear in the
codec only through the two projections the code applies to them — the numeric
cast `value as u64` on the encoder side and `f64::from_bits`/`f64::to_bits`
bit patterns on the decoder side — so data points carry those `u64` views.
-/

namespace Tsz

/-- A single bit, as in `src/lib.rs` (`enum Bit { Zero, One }`). -/
inductive Bit where
  | zero
  | one
deriving DecidableEq, Repr

/-- `Bit::to_u64` from `src/lib.rs`: `Zero` is 0 and `One` is 1. -/
def Bit.to_u64 : Bit → Nat
  | .zero => 0
  | .one => 1

/-- Wrapping 64-bit addition: `u64` `wrapping_add` (and release-mode `+`). -/
def wadd64 (a b : Nat) : Nat := (a + b) % 2 ^ 64

/-- Wrapping 64-bit subtraction: `u64` `wrapping_sub` (and release-mode `-`).
For `a b < 2^64` this is the two's-complement difference. -/
def wsub64 (a b : Nat) : Nat := (a % 2 ^ 64 + (2 ^ 64 - b % 2 ^ 64)) % 2 ^ 64

/-- Reinterpretation of a `u64` bit pattern as an `i32` (`as i32`): keep the
low 32 bits and read them as a signed two's-complement value. -/
def as_i32 (n : Nat) : Int :=
  let m : Nat := n % 2 ^ 32
  if m < 2 ^ 31 then (m : Int) else (m : Int) - 2 ^ 32

/-- Signed reading of a `u64` bit pattern as a two's-complement 64-bit value. -/
def sint64 (n : Nat) : Int :=
  if n % 2 ^ 64 < 2 ^ 63 then (n % 2 ^ 64 : Nat) else (n % 2 ^ 64 : Nat) - 2 ^ 64

/-- Cast of an `i32` value to `u64` (`as u64`): sign extension to 64 bits,
i.e. the value modulo `2^64`. -/
def u64_of_i32 (d : Int) : Nat := (d % 2 ^ 64).toNat

/-- Helper for `u64_leading_zeros`: number of binary digits of `n` (0 for 0),
computed with fuel so that it reduces structurally. -/
def sizeAux : Nat → Nat → Nat
  | 0, _ => 0
  | f + 1, n => if n = 0 then 0 else sizeAux f (n / 2) + 1

/-- `u64::leading_zeros` of a value below `2^64`: 64 minus the number of
binary digits. -/
def u64_leading_zeros (n : Nat) : Nat := 64 - sizeAux 64 n

/-- Helper for `u64_trailing_zeros`: count factors of two, with fuel. -/
def tzAux : Nat → Nat → Nat
  | 0, _ => 0
  | f + 1, n => if n % 2 = 0 then tzAux f (n / 2) + 1 else 0

/-- `u64::trailing_zeros` of a value below `2^64` (64 for 0). -/
def u64_trailing_zeros (n : Nat) : Nat := tzAux 64 n

/-- The low `k` bits of `v` in MSB-first order (bit `k-1` first), the
observable bit sequence of a `write_bits(v, k)` call. -/
def natBits (v : Nat) : Nat → List Bool
  | 0 => []
  | k + 1 => v.testBit k :: natBits v k

/-- Modelled from the spec: the repository declares `stream::BufferedWriter`
(`pub mod buffered_write`) but `src/stream/buffered_write.rs` is not among
the sources.  Per spec §4.1 the writer appends bits MSB-first to a growable
byte buffer and its observable output is defined by repeated single-bit
emission, so the model is the accumulated list of bits. -/
structure BufferedWriter where
  bits : List Bool
deriving DecidableEq, Repr

/-- Modelled from the spec: `BufferedWriter::new` starts with an empty buffer. -/
def BufferedWriter.new : BufferedWriter := ⟨[]⟩

/-- Modelled from the spec: `write_bit` appends one bit. -/
def BufferedWriter.write_bit (w : BufferedWriter) (b : Bit) : BufferedWriter :=
  ⟨w.bits ++ [b == Bit.one]⟩

/-- Modelled from the spec: `write_bits(value, n)` appends the low `n` bits of
`value` in MSB-first order (bit `n-1` first). -/
def BufferedWriter.write_bits (w : BufferedWriter) (v : Nat) (n : Nat) : BufferedWriter :=
  ⟨w.bits ++ natBits v n⟩

/-- The byte a list of at most 8 MSB-first bits packs into, the missing
low-order bits being the zero-initialised contents of the final partial byte. -/
def byteOfBits (bs : List Bool) : Nat :=
  (bs ++ List.replicate (8 - bs.length) false).foldl (fun a b => 2 * a + (if b then 1 else 0)) 0

/-- Modelled from the spec: packing of the accumulated bit sequence into
bytes, MSB-first within each byte, the tail byte zero-padded. -/
def bitsToBytes : List Bool → List Nat
  | [] => []
  | b0 :: b1 :: b2 :: b3 :: b4 :: b5 :: b6 :: b7 :: rest =>
    byteOfBits [b0, b1, b2, b3, b4, b5, b6, b7] :: bitsToBytes rest
  | l => [byteOfBits l]

/-- Modelled from the spec: `BufferedWriter::close` returns the accumulated
bytes. -/
def BufferedWriter.close (w : BufferedWriter) : List Nat := bitsToBytes w.bits

/-- A data point as the codec observes it (`DataPoint` in `src/lib.rs`).  The
encoder touches the `f64` value only through the saturating numeric cast
`value as u64` (`write_first` and `write_next_value`), so `value_u64` carries
the result of that cast.  E.g. for the value `0.0` it is 0, for `1.0` and
`1.24` it is 1. -/
structure DataPoint where
  time : Nat
  value_u64 : Nat
deriving DecidableEq, Repr

/-- A decoded data point: the decoder produces the value as
`f64::from_bits(value_bits)`, so `value_bits` carries the bit pattern. -/
structure DecodedPoint where
  time : Nat
  value_bits : Nat
deriving DecidableEq, Repr

/-- `END_MARKER` from `src/encode/std_encoder.rs`. -/
def END_MARKER : Nat := 0b111100000000000000000000000000000000

/-- `END_MARKER_LEN` from `src/encode/std_encoder.rs`. -/
def END_MARKER_LEN : Nat := 36

/-- Encoder state, `StdEncoder` in `src/encode/std_encoder.rs`. -/
structure StdEncoder where
  time : Nat
  delta : Nat
  value_bits : Nat
  leading_zeroes : Nat
  trailing_zeroes : Nat
  first : Bool
  w : BufferedWriter
deriving DecidableEq, Repr

/-- `StdEncoder::new`: all-zero state (note the `leading_zeroes` and
`trailing_zeroes` fields start at 0, not a sentinel), writes the 64-bit
timestamp header. -/
def StdEncoder.new (start : Nat) : StdEncoder :=
  { time := start
    delta := 0
    value_bits := 0
    leading_zeroes := 0
    trailing_zeroes := 0
    first := false
    w := BufferedWriter.new.write_bits start 64 }

/-- `StdEncoder::write_first`: control bit 0, the first delta
(`dp.time - self.time`, wrapping in release mode) in 14 bits, then the 64-bit
result of the numeric cast `dp.value as u64`. -/
def StdEncoder.write_first (e : StdEncoder) (dp : DataPoint) : StdEncoder :=
  let time := dp.time
  let value_bits := dp.value_u64
  let delta := wsub64 time e.time
  let w := ((e.w.write_bit Bit.zero).write_bits delta 14).write_bits value_bits 64
  { e with time := time, value_bits := value_bits, delta := delta, w := w, first := true }

/-- `StdEncoder::write_next_timestamp`: the delta of deltas is
`delta.wrapping_sub(self.delta) as i32` and selects a variable-length code by
the first matching of the inclusive i32 range patterns `0`, `-63...64`,
`-255...256`, `-2047...2048`, catch-all. -/
def StdEncoder.write_next_timestamp (e : StdEncoder) (time : Nat) : StdEncoder :=
  let delta := wsub64 time e.time
  let dod : Int := as_i32 (wsub64 delta e.delta)
  let w :=
    if dod = 0 then
      e.w.write_bit Bit.zero
    else if -63 ≤ dod ∧ dod ≤ 64 then
      (e.w.write_bits 0b10 2).write_bits (u64_of_i32 dod) 7
    else if -255 ≤ dod ∧ dod ≤ 256 then
      (e.w.write_bits 0b110 3).write_bits (u64_of_i32 dod) 9
    else if -2047 ≤ dod ∧ dod ≤ 2048 then
      (e.w.write_bits 0b1110 4).write_bits (u64_of_i32 dod) 12
    else
      (e.w.write_bits 0b1111 4).write_bits (u64_of_i32 dod) 32
  { e with delta := delta, time := time, w := w }

/-- `StdEncoder::write_next_value`: `value_bits` is the numeric cast
`value as u64`; a zero xor stores one zero bit; otherwise the window-reuse
branch fires when this xor has strictly fewer leading and trailing zeroes
than the stored window, and both branches store `xor.wrapping_shl(..)`
(a left shift, the shift amount masked modulo 64) in
`64 - leading_zeroes - trailing_zeroes` bits computed from the current
xor's freshly counted zeroes — the reuse branch too uses the new counts,
not the stored window.  The function never updates `self.value_bits`. -/
def StdEncoder.write_next_value (e : StdEncoder) (value_u64 : Nat) : StdEncoder :=
  let value_bits := value_u64
  let xor := value_bits ^^^ e.value_bits
  if xor = 0 then
    { e with w := e.w.write_bit Bit.zero }
  else
    let w1 := e.w.write_bit Bit.one
    let leading_zeroes := u64_leading_zeros xor
    let trailing_zeroes := u64_trailing_zeros xor
    if leading_zeroes < e.leading_zeroes ∧ trailing_zeroes < e.trailing_zeroes then
      let w := (w1.write_bit Bit.zero).write_bits
        ((xor <<< (trailing_zeroes % 64)) % 2 ^ 64)
        (64 - leading_zeroes - trailing_zeroes)
      { e with w := w }
    else
      let significant_digits := 64 - leading_zeroes - trailing_zeroes
      let w := (((w1.write_bit Bit.one).write_bits leading_zeroes 6).write_bits
        (significant_digits - 1) 6).write_bits
        ((xor <<< (trailing_zeroes % 64)) % 2 ^ 64) significant_digits
      { e with w := w, leading_zeroes := leading_zeroes, trailing_zeroes := trailing_zeroes }

/-- `StdEncoder::write_next`. -/
def StdEncoder.write_next (e : StdEncoder) (dp : DataPoint) : StdEncoder :=
  (e.write_next_timestamp dp.time).write_next_value dp.value_u64

/-- `Encode::encode` for `StdEncoder`. -/
def StdEncoder.encode (e : StdEncoder) (dp : DataPoint) : StdEncoder :=
  if e.first = false then e.write_first dp else e.write_next dp

/-- `Encode::close` for `StdEncoder`: append the 36-bit end marker and close
the writer. -/
def StdEncoder.close (e : StdEncoder) : List Nat :=
  (e.w.write_bits END_MARKER 36).close

/-- Reader state, `BufferedReader` in `src/stream/buffered_read.rs`: a byte
buffer, an index into it, and an intra-byte position. -/
structure BufferedReader where
  bytes : List Nat
  index : Nat
  pos : Nat
deriving DecidableEq, Repr

/-- `BufferedReader::new`. -/
def BufferedReader.new (bytes : List Nat) : BufferedReader :=
  { bytes := bytes, index := 0, pos := 0 }

/-- `BufferedReader::get_byte`: `self.bytes.get(self.index)`, EOF when out of
range. -/
def BufferedReader.get_byte (r : BufferedReader) : Option Nat :=
  r.bytes.get? r.index

/-- `Read::read_bit` for `BufferedReader`: roll over to the next byte when 8
bits have been consumed, then test bit `7 - pos` of the current byte.  The
reachable positions satisfy `pos ≤ 8`, so after the rollover the shift amount
`7 - pos` matches the `u32` subtraction in the source. -/
def BufferedReader.read_bit (r : BufferedReader) : Option Bit × BufferedReader :=
  let r := if r.pos = 8 then { r with index := r.index + 1, pos := 0 } else r
  match r.get_byte with
  | none => (none, r)
  | some byte =>
    let bit := if byte &&& (1 <<< (7 - r.pos)) = 0 then Bit.zero else Bit.one
    (some bit, { r with pos := r.pos + 1 })

/-- `Read::read_byte` for `BufferedReader`.  In the straddling branch the
shift amounts lie in `1..7`, so the `u8` `wrapping_shl`/`wrapping_shr` masks
are no-ops and only the `% 256` reduction of the left shift remains. -/
def BufferedReader.read_byte (r : BufferedReader) : Option Nat × BufferedReader :=
  if r.pos = 0 then
    let r' := { r with pos := r.pos + 8 }
    (r'.get_byte, r')
  else if r.pos = 8 then
    let r' := { r with index := r.index + 1 }
    (r'.get_byte, r')
  else
    match r.get_byte with
    | none => (none, r)
    | some b =>
      let byte := 0 ||| ((b <<< (r.pos % 8)) % 2 ^ 8)
      let r' := { r with index := r.index + 1 }
      match r'.get_byte with
      | none => (none, r')
      | some b2 => (some (byte ||| (b2 >>> ((8 - r.pos) % 8))), r')

/-- The byte-reading loop of `read_bits` (`while num_bits >= 8`), running a
fixed number of iterations. -/
def BufferedReader.readBytesAux : Nat → Nat → BufferedReader → Option Nat × BufferedReader
  | 0, bits, r => (some bits, r)
  | k + 1, bits, r =>
    match r.read_byte with
    | (none, r') => (none, r')
    | (some byte, r') => readBytesAux k (((bits <<< 8) % 2 ^ 64) ||| byte) r'

/-- The bit-reading loop of `read_bits` (`while num_bits > 0`). -/
def BufferedReader.readBitsAux : Nat → Nat → BufferedReader → Option Nat × BufferedReader
  | 0, bits, r => (some bits, r)
  | k + 1, bits, r =>
    match r.read_bit with
    | (none, r') => (none, r')
    | (some bit, r') => readBitsAux k (((bits <<< 1) % 2 ^ 64) ||| bit.to_u64) r'

/-- `Read::read_bits` for `BufferedReader`: the requested count is clamped to
64, whole bytes are consumed first, then single bits. -/
def BufferedReader.read_bits (r : BufferedReader) (num_bits : Nat) : Option Nat × BufferedReader :=
  let n := min num_bits 64
  match r.readBytesAux (n / 8) 0 with
  | (none, r') => (none, r')
  | (some bits, r') => r'.readBitsAux (n % 8) bits

/-- `Read::peak_bits` for `BufferedReader`: save index and position, delegate
to `read_bits`, and restore them — but only on the success path, since the
source returns early (`?`) on error without restoring. -/
def BufferedReader.peak_bits (r : BufferedReader) (num_bits : Nat) : Option Nat × BufferedReader :=
  let index := r.index
  let pos := r.pos
  match r.read_bits num_bits with
  | (none, r') => (none, r')
  | (some bits, r') => (some bits, { r' with index := index, pos := pos })

/-- The reader capability surface the decoder consumes (`StdDecoder<T: Read>`
is generic over the `stream::Read` trait; these are the three operations it
calls).  Stream errors carry no information beyond EOF, hence `Option`. -/
structure ReadOps (ρ : Type) where
  read_bit : ρ → Option Bit × ρ
  read_bits : ρ → Nat → Option Nat × ρ
  peak_bits : ρ → Nat → Option Nat × ρ

/-- The `Read` instance of `BufferedReader`, packaged for the generic
decoder. -/
def bufferedOps : ReadOps BufferedReader :=
  { read_bit := BufferedReader.read_bit
    read_bits := BufferedReader.read_bits
    peak_bits := BufferedReader.peak_bits }

/-- `decode::Error` from `src/decode/mod.rs`; `stream` is
`Error::Stream(stream::Error::EOF)`, the only stream error. -/
inductive DecodeError where
  | stream
  | invalidInitialTimestamp
  | invalidEndOfStream
  | endOfStream
deriving DecidableEq, Repr

/-- Decoder state, `StdDecoder` in `src/decode/std_decoder.rs`, generic over
the reader type. -/
structure StdDecoder (ρ : Type) where
  time : Nat
  delta : Nat
  value_bits : Nat
  xor : Nat
  leading_zeroes : Nat
  trailing_zeroes : Nat
  first : Bool
  done : Bool
  r : ρ

/-- `StdDecoder::new`. -/
def StdDecoder.new {ρ : Type} (r : ρ) : StdDecoder ρ :=
  { time := 0, delta := 0, value_bits := 0, xor := 0, leading_zeroes := 0,
    trailing_zeroes := 0, first := true, done := false, r := r }

/-- `StdDecoder::read_initial_timestamp`: read 64 bits as the header time,
mapping a read failure to `InvalidInitialTimestamp`. -/
def StdDecoder.read_initial_timestamp {ρ : Type} (ops : ReadOps ρ) (d : StdDecoder ρ) :
    Except DecodeError Nat × StdDecoder ρ :=
  match ops.read_bits d.r 64 with
  | (none, r') => (.error .invalidInitialTimestamp, { d with r := r' })
  | (some time, r') => (.ok time, { d with time := time, r := r' })

/-- `StdDecoder::read_first_timestamp`: after the header, peek one bit; a 1
means the stream holds no points, so 36 bits are read and compared with the
end marker; a 0 is consumed and a 14-bit first delta is added to the time
(wrapping `+=` in release mode). -/
def StdDecoder.read_first_timestamp {ρ : Type} (ops : ReadOps ρ) (d : StdDecoder ρ) :
    Except DecodeError Nat × StdDecoder ρ :=
  match d.read_initial_timestamp ops with
  | (.error e, d) => (.error e, d)
  | (.ok _, d) =>
    match ops.peak_bits d.r 1 with
    | (none, r') => (.error .stream, { d with r := r' })
    | (some control_bit, r') =>
      let d := { d with r := r' }
      if control_bit = 1 then
        match ops.read_bits d.r END_MARKER_LEN with
        | (none, r') => (.error .stream, { d with r := r' })
        | (some marker, r') =>
          if marker = END_MARKER then (.error .endOfStream, { d with r := r' })
          else (.error .invalidEndOfStream, { d with r := r' })
      else
        match ops.read_bit d.r with
        | (none, r') => (.error .stream, { d with r := r' })
        | (some _, r') =>
          let d := { d with r := r' }
          match ops.read_bits d.r 14 with
          | (none, r') => (.error .stream, { d with r := r' })
          | (some delta, r') =>
            let d := { d with delta := delta, time := wadd64 d.time delta, r := r' }
            (.ok d.time, d)

/-- The control-bit loop of `read_next_timestamp` (`for _ in 0..4` with a
break on the first zero bit). -/
def StdDecoder.ctrlAux {ρ : Type} (ops : ReadOps ρ) : Nat → Nat → ρ → Except DecodeError Nat × ρ
  | 0, acc, r => (.ok acc, r)
  | k + 1, acc, r =>
    match ops.read_bit r with
    | (none, r') => (.error .stream, r')
    | (some .one, r') => ctrlAux ops k (acc + 1) r'
    | (some .zero, r') => (.ok acc, r')

/-- `StdDecoder::read_next_timestamp`: count up to four control 1-bits; zero
leading ones adds the stored delta; the 32-bit class checks for the
end-of-stream zero payload and otherwise returns the raw 32-bit value
without updating `delta` or `time` (as the source does); the 7/9/12-bit
classes sign-extend payloads whose value exceeds `1 << (size-1)` by OR-ing in
`u64::MAX << size` before the wrapping additions. -/
def StdDecoder.read_next_timestamp {ρ : Type} (ops : ReadOps ρ) (d : StdDecoder ρ) :
    Except DecodeError Nat × StdDecoder ρ :=
  match StdDecoder.ctrlAux ops 4 0 d.r with
  | (.error e, r') => (.error e, { d with r := r' })
  | (.ok control_bits, r') =>
    let d := { d with r := r' }
    match control_bits with
    | 0 =>
      let d := { d with time := wadd64 d.time d.delta }
      (.ok d.time, d)
    | 4 =>
      match ops.read_bits d.r 32 with
      | (none, r') => (.error .stream, { d with r := r' })
      | (some dod, r') =>
        if dod = 0 then (.error .endOfStream, { d with r := r' })
        else (.ok dod, { d with r := r' })
    | c =>
      let size : Nat := if c = 1 then 7 else if c = 2 then 9 else 12
      match ops.read_bits d.r size with
      | (none, r') => (.error .stream, { d with r := r' })
      | (some dod0, r') =>
        let dod := if dod0 > 1 <<< (size - 1)
          then dod0 ||| ((((2 ^ 64 - 1) <<< (size % 64)) % 2 ^ 64))
          else dod0
        let d := { d with r := r' }
        let d := { d with delta := wadd64 d.delta dod }
        let d := { d with time := wadd64 d.time d.delta }
        (.ok d.time, d)

/-- `StdDecoder::read_first_value`: 64 bits of value bit pattern. -/
def StdDecoder.read_first_value {ρ : Type} (ops : ReadOps ρ) (d : StdDecoder ρ) :
    Except DecodeError Nat × StdDecoder ρ :=
  match ops.read_bits d.r 64 with
  | (none, r') => (.error .stream, { d with r := r' })
  | (some bits, r') => (.ok bits, { d with value_bits := bits, r := r' })

/-- `StdDecoder::read_next_value`: control bit, optional new window (6-bit
leading-zero count and 6-bit significant-digit count, the latter stored plus
one), then the payload XOR-ed into `value_bits` shifted left by the trailing
zeroes.  The `u32` subtractions computing the window are modelled as
truncated `Nat` subtraction, and the `u64` shift is masked modulo 64; on the
streams considered here the subtrahends never exceed the minuends. -/
def StdDecoder.read_next_value {ρ : Type} (ops : ReadOps ρ) (d : StdDecoder ρ) :
    Except DecodeError Nat × StdDecoder ρ :=
  match ops.read_bit d.r with
  | (none, r') => (.error .stream, { d with r := r' })
  | (some .zero, r') => (.ok d.value_bits, { d with r := r' })
  | (some .one, r') =>
    let d := { d with r := r' }
    match ops.read_bit d.r with
    | (none, r') => (.error .stream, { d with r := r' })
    | (some zeroes_bit, r') =>
      let d := { d with r := r' }
      let step : Except DecodeError Unit × StdDecoder ρ :=
        if zeroes_bit = Bit.one then
          match ops.read_bits d.r 6 with
          | (none, r') => (.error .stream, { d with r := r' })
          | (some lz, r') =>
            let d := { d with leading_zeroes := lz, r := r' }
            match ops.read_bits d.r 6 with
            | (none, r') => (.error .stream, { d with r := r' })
            | (some sd, r') =>
              let significant_digits := sd + 1
              (.ok (),
                { d with trailing_zeroes := 64 - d.leading_zeroes - significant_digits,
                         r := r' })
        else (.ok (), d)
      match step with
      | (.error e, d) => (.error e, d)
      | (.ok _, d) =>
        let size := 64 - d.leading_zeroes - d.trailing_zeroes
        match ops.read_bits d.r size with
        | (none, r') => (.error .stream, { d with r := r' })
        | (some bits, r') =>
          let d := { d with
            value_bits := d.value_bits ^^^ ((bits <<< (d.trailing_zeroes % 64)) % 2 ^ 64),
            r := r' }
          (.ok d.value_bits, d)

/-- `Decode::next` for `StdDecoder`: once `done` is set every call returns
`EndOfStream` untouched; otherwise the first or a subsequent point is
decoded, `done` being recorded when a timestamp read signals `EndOfStream`. -/
def StdDecoder.next {ρ : Type} (ops : ReadOps ρ) (d : StdDecoder ρ) :
    Except DecodeError DecodedPoint × StdDecoder ρ :=
  if d.done then (.error .endOfStream, d)
  else if d.first then
    let d := { d with first := false }
    match d.read_first_timestamp ops with
    | (.error e, d) =>
      (.error e, if e = .endOfStream then { d with done := true } else d)
    | (.ok time, d) =>
      match d.read_first_value ops with
      | (.error e, d) => (.error e, d)
      | (.ok value_bits, d) => (.ok ⟨time, value_bits⟩, d)
  else
    match d.read_next_timestamp ops with
    | (.error e, d) =>
      (.error e, if e = .endOfStream then { d with done := true } else d)
    | (.ok time, d) =>
      match d.read_next_value ops with
      | (.error e, d) => (.error e, d)
      | (.ok value_bits, d) => (.ok ⟨time, value_bits⟩, d)

/-- Results of `n` successive `next` calls. -/
def StdDecoder.nextList {ρ : Type} (ops : ReadOps ρ) :
    Nat → StdDecoder ρ → List (Except DecodeError DecodedPoint)
  | 0, _ => []
  | n + 1, d =>
    let p := d.next ops
    p.1 :: StdDecoder.nextList ops n p.2

/-- The state after `n` successive `next` calls. -/
def StdDecoder.afterN {ρ : Type} (ops : ReadOps ρ) : Nat → StdDecoder ρ → StdDecoder ρ
  | 0, d => d
  | n + 1, d => StdDecoder.afterN ops n (d.next ops).2

/-- A bit-list reader.  `StdDecoder<T: Read>` is generic over the reader, so
the generic decoder can be instantiated at the simplest faithful reader: a
list of bits read MSB-first, one bit per `read_bit`, `read_bits` clamping to
64 and accumulating exactly as `BufferedReader::read_bits` does. -/
def listReadBit : List Bool → Option Bit × List Bool
  | [] => (none, [])
  | b :: rest => (some (if b then Bit.one else Bit.zero), rest)

/-- The accumulation loop of the bit-list reader's `read_bits`. -/
def listReadBitsAux : Nat → Nat → List Bool → Option Nat × List Bool
  | 0, bits, l => (some bits, l)
  | k + 1, bits, l =>
    match listReadBit l with
    | (none, l') => (none, l')
    | (some bit, l') => listReadBitsAux k (((bits <<< 1) % 2 ^ 64) ||| bit.to_u64) l'

/-- `read_bits` for the bit-list reader. -/
def listReadBits (l : List Bool) (n : Nat) : Option Nat × List Bool :=
  listReadBitsAux (min n 64) 0 l

/-- `peak_bits` for the bit-list reader. -/
def listPeakBits (l : List Bool) (n : Nat) : Option Nat × List Bool :=
  match listReadBits l n with
  | (none, l') => (none, l')
  | (some v, _) => (some v, l)

/-- The bit-list reader packaged as a capability record. -/
def listOps : ReadOps (List Bool) :=
  { read_bit := listReadBit
    read_bits := listReadBits
    peak_bits := listPeakBits }

deriving instance DecidableEq for Except

deriving instance DecidableEq for StdDecoder

/-- C1: the round trip fails on the code.  Encoding the strictly increasing
points `(1, 0.0), (5000, 0.0)` from `base_time = 0` (value `0.0` has both
numeric cast and bit pattern 0) and decoding the bytes yields the point
`(4998, 0.0)` in place of `(5000, 0.0)`: the decoder's 32-bit
delta-of-delta branch returns the raw dod (4998) as the timestamp and never
updates `delta` or `time`. -/
theorem c1_roundtrip_fails :
    StdDecoder.nextList bufferedOps 3
        (StdDecoder.new (BufferedReader.new
          ((((StdEncoder.new 0).encode ⟨1, 0⟩).encode ⟨5000, 0⟩).close)))
      = [.ok ⟨1, 0⟩, .ok ⟨4998, 0⟩, .error .endOfStream]
    ∧ (Except.ok ⟨4998, 0⟩ : Except DecodeError DecodedPoint) ≠ .ok ⟨5000, 0⟩ := by
  constructor
  · decide
  · decide

/-- C2: the encoder does not write the IEEE-754 bit pattern of the first
value.  For the single point `(1482268065, 1.24)` with `base_time`
1482268055 the source computes `1.24 as u64 = 1` (numeric saturating cast)
and emits the 64-bit value 1, so the byte stream is
`[.., 0, 20, 0, .., 3, 224, ..]` (exactly the bytes the repository's own
`encode_one_datapoint` test expects for the value `1.0`, whose cast is also
1) and differs from the claimed bit-pattern bytes `[.., 0, 20, 127, 231, ..]`
already at index 10. -/
theorem c2_first_value_not_bit_pattern :
    ((StdEncoder.new 1482268055).encode ⟨1482268065, 1⟩).close
      = [0, 0, 0, 0, 88, 89, 157, 151, 0, 20, 0, 0, 0, 0, 0, 0, 0, 3, 224, 0, 0, 0, 0]
    ∧ (((StdEncoder.new 1482268055).encode ⟨1482268065, 1⟩).close).take 19
      ≠ [0, 0, 0, 0, 88, 89, 157, 151, 0, 20, 127, 231, 174, 20, 122, 225, 71, 175, 224] := by
  constructor
  · decide
  · decide

/-- C3: the value compressor diverges from the claimed window rule, in both
branches.  New-window side: from the state after a first value with bits 0
(window fields at the 0,0 initial state), a next value whose cast is 2 gives
`xor = 2` with 62 leading and 1 trailing zero; the source opens a new window
(its reuse test is `lz < stored ∧ tz < stored`, not `≥`) and then emits
`xor.wrapping_shl(tz) = 4` in 1 bit, i.e. a 0 bit, where the claimed payload
`x >> tz = 1` in 1 bit is a 1 bit.  Reuse side: with stored window (62, 1)
and a next xor of 5 (61 leading, 0 trailing zeroes, so the source's `<`
test fires) the source emits control bits 1 0 and then
`xor.wrapping_shl(0) = 5` in `64 - 61 - 0 = 3` bits — the width from the
current xor's freshly counted zeroes — giving `[1,0,1,0,1]`, where the
claimed emission of `x >> 1 = 2` in the stored window's
`64 - 62 - 1 = 1` bit would give `[1,0,0]`. -/
theorem c3_window_payload_diverges :
    (StdEncoder.write_next_value ⟨0, 0, 0, 0, 0, true, ⟨[]⟩⟩ 2).w.bits
      = [true, true, true, true, true, true, true, false,
         false, false, false, false, false, false, false]
    ∧ (StdEncoder.write_next_value ⟨0, 0, 0, 0, 0, true, ⟨[]⟩⟩ 2).w.bits
      ≠ [true, true, true, true, true, true, true, false,
         false, false, false, false, false, false, true]
    ∧ natBits (2 >>> 1) 1 = [true]
    ∧ (StdEncoder.write_next_value ⟨0, 0, 0, 62, 1, true, ⟨[]⟩⟩ 5).w.bits
      = [true, false, true, false, true]
    ∧ (StdEncoder.write_next_value ⟨0, 0, 0, 62, 1, true, ⟨[]⟩⟩ 5).w.bits
      ≠ [true, false] ++ natBits (5 >>> 1) (64 - 62 - 1) := by
  refine ⟨by decide, by decide, by decide, by decide, by decide⟩

/-- C9: the encoder never fails.  Its embedding is total; the delta
subtraction of `write_next_timestamp` and `write_first` is the wrapping
difference modulo `2^64` for every input, including times moving backwards;
and the stream produced for the first point `(5, 0.0)` with `base_time = 10`
(a first time below `base_time`) decodes without error to the wrapped,
14-bit-truncated timestamp `10 + (2^14 - 5) = 16389`, followed by
end-of-stream. -/
theorem c9_encoder_total_and_wraps :
    (∀ (e : StdEncoder) (t : Nat),
        (e.write_next_timestamp t).delta = wsub64 t e.time
        ∧ (e.write_next_timestamp t).time = t)
    ∧ (∀ (e : StdEncoder) (dp : DataPoint),
        (e.write_first dp).delta = wsub64 dp.time e.time)
    ∧ StdDecoder.nextList bufferedOps 2
        (StdDecoder.new (BufferedReader.new (((StdEncoder.new 10).encode ⟨5, 0⟩).close)))
      = [.ok ⟨16389, 0⟩, .error .endOfStream] := by
  refine ⟨fun e t => ⟨rfl, rfl⟩, fun e dp => rfl, by decide⟩

/-- C8, counterexample: `peak_bits` does not leave the reader unchanged when
the result is an EOF error.  On a one-byte buffer, `peak_bits(16)` returns
EOF and leaves the reader at index 1, position 8 instead of restoring index
0, position 0: the source's early return (`?`) skips the restore. -/
theorem c8_cex_peak_moves_on_eof :
    (BufferedReader.peak_bits ⟨[5], 0, 0⟩ 16).1 = none
    ∧ (BufferedReader.peak_bits ⟨[5], 0, 0⟩ 16).2 ≠ ⟨[5], 0, 0⟩ := by
  constructor
  · decide
  · decide

/-- Helper: a decoder whose `done` flag is set returns `EndOfStream` and the
unchanged state, performing no reader operation. -/
theorem next_of_done {ρ : Type} (ops : ReadOps ρ) (d : StdDecoder ρ) (h : d.done = true) :
    d.next ops = (.error .endOfStream, d) := by
  simp [StdDecoder.next, h]

/-- Helper: `read_first_value` only ever fails with a stream error. -/
theorem read_first_value_err {ρ : Type} (ops : ReadOps ρ) (d : StdDecoder ρ) (e : DecodeError)
    (h : (d.read_first_value ops).1 = .error e) : e = .stream := by
  unfold StdDecoder.read_first_value at h
  rcases hrb : ops.read_bits d.r 64 with ⟨o, r'⟩
  rw [hrb] at h
  cases o <;> simp_all

/-- Helper: `read_next_value` only ever fails with a stream error. -/
theorem read_next_value_err {ρ : Type} (ops : ReadOps ρ) (d : StdDecoder ρ) (e : DecodeError)
    (h : (d.read_next_value ops).1 = .error e) : e = .stream := by
  unfold StdDecoder.read_next_value at h
  rcases h1 : ops.read_bit d.r with ⟨o1, r1⟩
  rw [h1] at h
  rcases o1 with _ | b1
  · simp_all
  rcases b1 with _ | _
  · simp_all
  simp only at h
  rcases h2 : ops.read_bit r1 with ⟨o2, r2⟩
  rw [h2] at h
  rcases o2 with _ | b2
  · simp_all
  simp only at h
  by_cases hb2 : b2 = Bit.one
  · simp only [hb2, if_pos rfl] at h
    rcases h3 : ops.read_bits r2 6 with ⟨o3, r3⟩
    rw [h3] at h
    rcases o3 with _ | lz
    · simp_all
    simp only at h
    rcases h4 : ops.read_bits r3 6 with ⟨o4, r4⟩
    rw [h4] at h
    rcases o4 with _ | sd
    · simp_all
    simp only [if_pos trivial] at h
    rcases h5 : ops.read_bits r4 (64 - lz - (64 - lz - (sd + 1))) with ⟨o5, r5⟩
    rw [h5] at h
    rcases o5 with _ | bits <;> simp_all
  · simp only [if_neg hb2] at h
    rcases h5 : ops.read_bits r2 (64 - d.leading_zeroes - d.trailing_zeroes) with ⟨o5, r5⟩
    rw [h5] at h
    rcases o5 with _ | bits <;> simp_all

/-- Helper: whenever `next` returns `EndOfStream` the `done` flag is set in
the resulting state. -/
theorem done_of_endOfStream {ρ : Type} (ops : ReadOps ρ) (d : StdDecoder ρ)
    (h : (d.next ops).1 = .error .endOfStream) : (d.next ops).2.done = true := by
  obtain ⟨t0, d0, v0, x0, l0, z0, f0, dn0, r0⟩ := d
  cases dn0
  · cases f0
    · unfold StdDecoder.next at *
      simp only [Bool.false_eq_true, if_false] at *
      rcases h1 : StdDecoder.read_next_timestamp ops ⟨t0, d0, v0, x0, l0, z0, false, false, r0⟩
        with ⟨o1, d1⟩
      rcases o1 with e1 | t1
      · try rw [h1] at h ⊢
        simp only at h ⊢
        have he : e1 = DecodeError.endOfStream := by cases e1 <;> simp_all
        rw [he]
        simp
      · try rw [h1] at h ⊢
        simp only at h ⊢
        rcases h2 : StdDecoder.read_next_value ops d1 with ⟨o2, d2⟩
        rcases o2 with e2 | v2
        · simp only at h ⊢
          have : e2 = .stream := read_next_value_err ops d1 e2 (by rw [h2])
          simp_all
        · simp_all
    · unfold StdDecoder.next at *
      simp only [Bool.false_eq_true, if_false, if_true] at *
      rcases h1 : StdDecoder.read_first_timestamp ops ⟨t0, d0, v0, x0, l0, z0, false, false, r0⟩
        with ⟨o1, d1⟩
      rcases o1 with e1 | t1
      · try rw [h1] at h ⊢
        simp only at h ⊢
        have he : e1 = DecodeError.endOfStream := by cases e1 <;> simp_all
        rw [he]
        simp
      · try rw [h1] at h ⊢
        simp only at h ⊢
        rcases h2 : StdDecoder.read_first_value ops d1 with ⟨o2, d2⟩
        rcases o2 with e2 | v2
        · simp only at h ⊢
          have : e2 = .stream := read_first_value_err ops d1 e2 (by rw [h2])
          simp_all
        · simp_all
  · simp [StdDecoder.next]

/-- C7: terminal idempotence.  For any reader implementation, once `next`
has returned `EndOfStream` every further call — any number of them — returns
`EndOfStream` again and leaves the decoder state, in particular the
underlying reader, completely unchanged (no read or peek is performed). -/
theorem c7_terminal_idempotent {ρ : Type} (ops : ReadOps ρ) (d : StdDecoder ρ)
    (h : (d.next ops).1 = .error .endOfStream) :
    ∀ n : Nat,
      StdDecoder.nextList ops n (d.next ops).2
          = List.replicate n (.error .endOfStream)
        ∧ StdDecoder.afterN ops n (d.next ops).2 = (d.next ops).2 := by
  have hdone := done_of_endOfStream ops d h
  have aux : ∀ (n : Nat) (d' : StdDecoder ρ), d'.done = true →
      StdDecoder.nextList ops n d' = List.replicate n (.error .endOfStream)
        ∧ StdDecoder.afterN ops n d' = d' := by
    intro n
    induction n with
    | zero => intro d' _; exact ⟨rfl, rfl⟩
    | succ k ih =>
      intro d' hd'
      have hnx := next_of_done ops d' hd'
      constructor
      · show ((d'.next ops).1 :: StdDecoder.nextList ops k (d'.next ops).2) = _
        rw [hnx]
        simp [List.replicate, (ih d' hd').1]
      · show StdDecoder.afterN ops k (d'.next ops).2 = d'
        rw [hnx]
        exact (ih d' hd').2
  exact fun n => aux n (d.next ops).2 hdone

/-- Witness for C7: the bare-header stream of the repository's
`create_new_decoder` test ends immediately; three further calls all return
`EndOfStream` with the state untouched. -/
theorem c7_witness :
    ((StdDecoder.new (BufferedReader.new
        [0, 0, 0, 0, 88, 89, 157, 151, 240, 0, 0, 0, 0])).next bufferedOps).1
      = .error .endOfStream
    ∧ (StdDecoder.nextList bufferedOps 3
          ((StdDecoder.new (BufferedReader.new
            [0, 0, 0, 0, 88, 89, 157, 151, 240, 0, 0, 0, 0])).next bufferedOps).2
        = List.replicate 3 (.error .endOfStream)
      ∧ StdDecoder.afterN bufferedOps 3
          ((StdDecoder.new (BufferedReader.new
            [0, 0, 0, 0, 88, 89, 157, 151, 240, 0, 0, 0, 0])).next bufferedOps).2
        = ((StdDecoder.new (BufferedReader.new
            [0, 0, 0, 0, 88, 89, 157, 151, 240, 0, 0, 0, 0])).next bufferedOps).2) :=
  ⟨by decide,
   c7_terminal_idempotent bufferedOps
     (StdDecoder.new (BufferedReader.new [0, 0, 0, 0, 88, 89, 157, 151, 240, 0, 0, 0, 0]))
     (by decide) 3⟩

/-- Helper: `read_bit` never changes the byte buffer. -/
theorem read_bit_bytes (r : BufferedReader) : (r.read_bit).2.bytes = r.bytes := by
  unfold BufferedReader.read_bit
  by_cases hp : r.pos = 8
  · simp only [if_pos hp]
    cases h : BufferedReader.get_byte { r with index := r.index + 1, pos := 0 } <;> simp [h]
  · simp only [if_neg hp]
    cases h : r.get_byte <;> simp [h]

/-- Helper: `read_byte` never changes the byte buffer. -/
theorem read_byte_bytes (r : BufferedReader) : (r.read_byte).2.bytes = r.bytes := by
  unfold BufferedReader.read_byte
  split
  · rfl
  · split
    · rfl
    · rcases h : r.get_byte with _ | b
      · rfl
      · simp only
        rcases h2 : BufferedReader.get_byte _ with _ | b2 <;> rfl

/-- Helper: the byte loop of `read_bits` never changes the byte buffer. -/
theorem readBytesAux_bytes (k : Nat) : ∀ (bits : Nat) (r : BufferedReader),
    (BufferedReader.readBytesAux k bits r).2.bytes = r.bytes := by
  induction k with
  | zero => intro bits r; rfl
  | succ m ih =>
    intro bits r
    unfold BufferedReader.readBytesAux
    rcases h : r.read_byte with ⟨o, r'⟩
    have hb : r'.bytes = r.bytes := by
      have := read_byte_bytes r
      rw [h] at this
      exact this
    rcases o with _ | byte
    · simpa using hb
    · simpa [ih] using hb

/-- Helper: the bit loop of `read_bits` never changes the byte buffer. -/
theorem readBitsAux_bytes (k : Nat) : ∀ (bits : Nat) (r : BufferedReader),
    (BufferedReader.readBitsAux k bits r).2.bytes = r.bytes := by
  induction k with
  | zero => intro bits r; rfl
  | succ m ih =>
    intro bits r
    unfold BufferedReader.readBitsAux
    rcases h : r.read_bit with ⟨o, r'⟩
    have hb : r'.bytes = r.bytes := by
      have := read_bit_bytes r
      rw [h] at this
      exact this
    rcases o with _ | bit
    · simpa using hb
    · simpa [ih] using hb

/-- Helper: `read_bits` never changes the byte buffer. -/
theorem read_bits_bytes (r : BufferedReader) (n : Nat) : (r.read_bits n).2.bytes = r.bytes := by
  unfold BufferedReader.read_bits
  dsimp only
  rcases h : r.readBytesAux (min n 64 / 8) 0 with ⟨o, r'⟩
  have hb : r'.bytes = r.bytes := by
    have := readBytesAux_bytes (min n 64 / 8) 0 r
    rw [h] at this
    exact this
  rcases o with _ | bits
  · simpa using hb
  · simp only
    have := readBitsAux_bytes (min n 64 % 8) bits r'
    rw [hb] at this
    exact this

/-- C8 (amended): `peak_bits(n)` returns exactly what `read_bits(n)` returns
from the same state; on success it restores the byte index and intra-byte
position (so a following `read_bits(n)` returns the equal value and ends in
the state `read_bits(n)` alone reaches); on an EOF error it ends in the
advanced state `read_bits(n)` ends in, the restore being skipped. -/
theorem c8_peak_equiv (r : BufferedReader) (n : Nat) :
    (r.peak_bits n).1 = (r.read_bits n).1
    ∧ ((r.read_bits n).1 = none → (r.peak_bits n).2 = (r.read_bits n).2)
    ∧ (∀ v : Nat, (r.read_bits n).1 = some v →
        (r.peak_bits n).2 = r ∧ (r.peak_bits n).2.read_bits n = r.read_bits n) := by
  obtain ⟨rbs, rix, rps⟩ := r
  unfold BufferedReader.peak_bits
  rcases h : BufferedReader.read_bits ⟨rbs, rix, rps⟩ n with ⟨o, rb', ri', rp'⟩
  have hb : rb' = rbs := by
    have := read_bits_bytes ⟨rbs, rix, rps⟩ n
    rw [h] at this
    exact this
  subst hb
  dsimp only
  try rw [h]
  rcases o with _ | v
  · exact ⟨rfl, fun _ => rfl, fun v hv => by simp at hv⟩
  · exact ⟨rfl, by simp, fun w hw => ⟨rfl, by first | rfl | rw [h]⟩⟩

/-- Witness for C8: on the two-byte buffer `[5, 7]` a 4-bit peek returns the
same value as a 4-bit read and restores the initial state. -/
theorem c8_witness :
    (BufferedReader.peak_bits ⟨[5, 7], 0, 0⟩ 4).1 = (BufferedReader.read_bits ⟨[5, 7], 0, 0⟩ 4).1
    ∧ (BufferedReader.peak_bits ⟨[5, 7], 0, 0⟩ 4).2 = ⟨[5, 7], 0, 0⟩ :=
  ⟨(c8_peak_equiv ⟨[5, 7], 0, 0⟩ 4).1,
   ((c8_peak_equiv ⟨[5, 7], 0, 0⟩ 4).2.2 0 (by decide)).1⟩

/-- C10, counterexample: for `n` beyond the 64-bit clamp the claim fails.  An
8-byte buffer holds 64 bits — at least one and fewer than `n = 65` — yet
`read_bits(65)` is clamped to 64 bits and succeeds instead of returning the
EOF error. -/
theorem c10_cex_clamp :
    1 ≤ 8 * ([0, 0, 0, 0, 0, 0, 0, 0] : List Nat).length
    ∧ 8 * ([0, 0, 0, 0, 0, 0, 0, 0] : List Nat).length < 65
    ∧ (BufferedReader.read_bits ⟨[0, 0, 0, 0, 0, 0, 0, 0], 0, 0⟩ 65).1 ≠ none := by
  refine ⟨by decide, by decide, by decide⟩

/-- C4: the delta-of-delta code selection.  For every encoder state and
subsequent timestamp, with `dod` the i32 reinterpretation of the wrapping
delta difference, the bits `write_next_timestamp` emits are: the single bit 0
when `dod = 0`; prefix `10` and the low 7 bits of the two's-complement `dod`
when `dod ∈ [-63, 64]`; prefix `110` and 9 bits when `dod ∈ [-255, 256]`
outside the former; prefix `1110` and 12 bits when `dod ∈ [-2047, 2048]`
outside the former; and prefix `1111` with the low 32 bits otherwise — the
inclusive ranges checked in order, shortest code first. -/
theorem c4_dod_code (e : StdEncoder) (t : Nat) :
    (as_i32 (wsub64 (wsub64 t e.time) e.delta) = 0 →
        ((e.write_next_timestamp t).w.bits).drop e.w.bits.length = [false])
    ∧ (as_i32 (wsub64 (wsub64 t e.time) e.delta) ≠ 0
        ∧ -63 ≤ as_i32 (wsub64 (wsub64 t e.time) e.delta)
        ∧ as_i32 (wsub64 (wsub64 t e.time) e.delta) ≤ 64 →
        ((e.write_next_timestamp t).w.bits).drop e.w.bits.length
          = [true, false] ++ natBits (u64_of_i32 (as_i32 (wsub64 (wsub64 t e.time) e.delta))) 7)
    ∧ (¬(-63 ≤ as_i32 (wsub64 (wsub64 t e.time) e.delta)
          ∧ as_i32 (wsub64 (wsub64 t e.time) e.delta) ≤ 64)
        ∧ -255 ≤ as_i32 (wsub64 (wsub64 t e.time) e.delta)
        ∧ as_i32 (wsub64 (wsub64 t e.time) e.delta) ≤ 256 →
        ((e.write_next_timestamp t).w.bits).drop e.w.bits.length
          = [true, true, false]
            ++ natBits (u64_of_i32 (as_i32 (wsub64 (wsub64 t e.time) e.delta))) 9)
    ∧ (¬(-255 ≤ as_i32 (wsub64 (wsub64 t e.time) e.delta)
          ∧ as_i32 (wsub64 (wsub64 t e.time) e.delta) ≤ 256)
        ∧ -2047 ≤ as_i32 (wsub64 (wsub64 t e.time) e.delta)
        ∧ as_i32 (wsub64 (wsub64 t e.time) e.delta) ≤ 2048 →
        ((e.write_next_timestamp t).w.bits).drop e.w.bits.length
          = [true, true, true, false]
            ++ natBits (u64_of_i32 (as_i32 (wsub64 (wsub64 t e.time) e.delta))) 12)
    ∧ (¬(-2047 ≤ as_i32 (wsub64 (wsub64 t e.time) e.delta)
          ∧ as_i32 (wsub64 (wsub64 t e.time) e.delta) ≤ 2048) →
        ((e.write_next_timestamp t).w.bits).drop e.w.bits.length
          = [true, true, true, true]
            ++ natBits (u64_of_i32 (as_i32 (wsub64 (wsub64 t e.time) e.delta))) 32) := by
  set dod := as_i32 (wsub64 (wsub64 t e.time) e.delta) with hdod
  refine ⟨fun h0 => ?_, fun h7 => ?_, fun h9 => ?_, fun h12 => ?_, fun h32 => ?_⟩
  · unfold StdEncoder.write_next_timestamp
    dsimp only
    rw [← hdod, if_pos h0]
    simp [BufferedWriter.write_bit, BufferedWriter.write_bits, List.drop_left', natBits]
  · unfold StdEncoder.write_next_timestamp
    dsimp only
    rw [← hdod, if_neg h7.1, if_pos ⟨h7.2.1, h7.2.2⟩]
    simp only [BufferedWriter.write_bits, List.append_assoc]
    rw [List.drop_left]
    norm_num [natBits, Nat.testBit_to_div_mod]
  · unfold StdEncoder.write_next_timestamp
    dsimp only
    have hne : dod ≠ 0 := by
      intro h; apply h9.1; rw [h]; exact ⟨by norm_num, by norm_num⟩
    rw [← hdod, if_neg hne, if_neg h9.1, if_pos ⟨h9.2.1, h9.2.2⟩]
    simp only [BufferedWriter.write_bits, List.append_assoc]
    rw [List.drop_left]
    norm_num [natBits, Nat.testBit_to_div_mod]
  · unfold StdEncoder.write_next_timestamp
    dsimp only
    have hne : dod ≠ 0 := by
      intro h; apply h12.1; rw [h]; exact ⟨by norm_num, by norm_num⟩
    have hn7 : ¬(-63 ≤ dod ∧ dod ≤ 64) := by
      intro h; exact h12.1 ⟨by linarith [h.1], by linarith [h.2]⟩
    rw [← hdod, if_neg hne, if_neg hn7, if_neg h12.1, if_pos ⟨h12.2.1, h12.2.2⟩]
    simp only [BufferedWriter.write_bits, List.append_assoc]
    rw [List.drop_left]
    norm_num [natBits, Nat.testBit_to_div_mod]
  · unfold StdEncoder.write_next_timestamp
    dsimp only
    have hne : dod ≠ 0 := by
      intro h; apply h32; rw [h]; exact ⟨by norm_num, by norm_num⟩
    have hn7 : ¬(-63 ≤ dod ∧ dod ≤ 64) := by
      intro h; exact h32 ⟨by linarith [h.1], by linarith [h.2]⟩
    have hn9 : ¬(-255 ≤ dod ∧ dod ≤ 256) := by
      intro h; exact h32 ⟨by linarith [h.1], by linarith [h.2]⟩
    rw [← hdod, if_neg hne, if_neg hn7, if_neg hn9, if_neg h32]
    simp only [BufferedWriter.write_bits, List.append_assoc]
    rw [List.drop_left]
    norm_num [natBits, Nat.testBit_to_div_mod]

/-- Witness for C4: from the fresh encoder at base 0, the timestamp 100 has
`dod = 100`, outside `[-63, 64]` and inside `[-255, 256]`, so the `110` code
with a 9-bit payload is emitted. -/
theorem c4_witness :
    (((StdEncoder.new 0).write_next_timestamp 100).w.bits).drop
        (StdEncoder.new 0).w.bits.length
      = [true, true, false]
        ++ natBits (u64_of_i32 (as_i32 (wsub64 (wsub64 100 (StdEncoder.new 0).time)
            (StdEncoder.new 0).delta))) 9 :=
  (c4_dod_code (StdEncoder.new 0) 100).2.2.1 (by decide)

/-- Helper: OR of a left shift with a value fitting in the shifted-out bits
is addition. -/
theorem shiftLeft_or_eq (x k b : Nat) (hb : b < 2 ^ k) : (x <<< k) ||| b = 2 ^ k * x + b := by
  rw [Nat.shiftLeft_eq, Nat.mul_comm]
  exact (Nat.mul_add_lt_is_or hb x).symm

/-- Helper: reading back `k` MSB-first bits written by `write_bits` yields
the low `k` bits of the written value, on top of the accumulator. -/
theorem listReadBitsAux_natBits :
    ∀ (k : Nat), k ≤ 64 → ∀ (acc v : Nat) (rest : List Bool), acc < 2 ^ (64 - k) →
      listReadBitsAux k acc (natBits v k ++ rest) = (some (acc * 2 ^ k + v % 2 ^ k), rest) := by
  intro k
  induction k with
  | zero =>
    intro _ acc v rest _
    simp [natBits, listReadBitsAux, Nat.mod_one]
  | succ m ih =>
    intro hk acc v rest hacc
    have hm : m ≤ 64 := by omega
    have hacc2 : 2 * acc + 1 < 2 ^ (64 - m) := by
      have h1 : 64 - (m + 1) + 1 = 64 - m := by omega
      have : 2 * acc + 1 < 2 * 2 ^ (64 - (m + 1)) := by omega
      calc 2 * acc + 1 < 2 * 2 ^ (64 - (m + 1)) := this
        _ = 2 ^ (64 - (m + 1) + 1) := by rw [Nat.pow_succ]; ring
        _ = 2 ^ (64 - m) := by rw [h1]
    have hshift : ∀ b : Nat, b < 2 → ((acc <<< 1) % 2 ^ 64) ||| b = 2 * acc + b := by
      intro b hb
      have hlt : acc <<< 1 < 2 ^ 64 := by
        rw [Nat.shiftLeft_eq]
        have : acc < 2 ^ 63 := by
          calc acc < 2 ^ (64 - (m + 1)) := hacc
            _ ≤ 2 ^ 63 := Nat.pow_le_pow_right (by norm_num) (by omega)
        calc acc * 2 ^ 1 = 2 * acc := by ring
          _ < 2 * 2 ^ 63 := by omega
          _ = 2 ^ 64 := by norm_num
      rw [Nat.mod_eq_of_lt hlt, shiftLeft_or_eq acc 1 b (by omega)]
      omega
    show listReadBitsAux (m + 1) acc ((v.testBit m :: natBits v m) ++ rest) = _
    rw [List.cons_append]
    cases hb : v.testBit m with
    | false =>
      have hdiv : v / 2 ^ m % 2 = 0 := by
        have h := Nat.testBit_to_div_mod (x := v) (i := m)
        rw [hb] at h
        have h2 := of_decide_eq_false h.symm
        omega
      have hmod : v % 2 ^ (m + 1) = v % 2 ^ m := by
        have := Nat.mod_mul (a := 2 ^ m) (b := 2) (x := v)
        rw [hdiv] at this
        rw [Nat.pow_succ] at *
        omega
      simp only [listReadBitsAux, listReadBit]
      rw [if_neg (by simp)]
      simp only [Bit.to_u64]
      rw [hshift 0 (by norm_num)]
      rw [ih hm (2 * acc + 0) v rest (by omega)]
      rw [hmod]
      have heq0 : (2 * acc + 0) * 2 ^ m + v % 2 ^ m = acc * 2 ^ (m + 1) + v % 2 ^ m := by
        rw [Nat.pow_succ]; ring
      rw [heq0]
    | true =>
      have hdiv : v / 2 ^ m % 2 = 1 := by
        have h := Nat.testBit_to_div_mod (x := v) (i := m)
        rw [hb] at h
        exact of_decide_eq_true h.symm
      have hmod : v % 2 ^ (m + 1) = v % 2 ^ m + 2 ^ m := by
        have := Nat.mod_mul (a := 2 ^ m) (b := 2) (x := v)
        rw [hdiv] at this
        rw [Nat.pow_succ] at *
        omega
      simp only [listReadBitsAux, listReadBit, if_true]
      simp only [Bit.to_u64]
      rw [hshift 1 (by norm_num)]
      rw [ih hm (2 * acc + 1) v rest (by omega)]
      rw [hmod]
      have heq : (2 * acc + 1) * 2 ^ m + v % 2 ^ m
          = acc * 2 ^ (m + 1) + (v % 2 ^ m + 2 ^ m) := by
        rw [Nat.pow_succ]; ring
      rw [heq]

/-- Helper: OR-ing the sign-extension mask into a `k`-bit payload is
addition. -/
theorem or_mask (k p : Nat) (hp : p < 2 ^ k) (hk : k ≤ 64) :
    p ||| (2 ^ 64 - 2 ^ k) = p + (2 ^ 64 - 2 ^ k) := by
  have h : 2 ^ 64 - 2 ^ k = 2 ^ k * (2 ^ (64 - k) - 1) := by
    rw [Nat.mul_sub_one, ← Nat.pow_add]
    congr 2
    omega
  rw [h, Nat.or_comm, ← Nat.mul_add_lt_is_or hp (2 ^ (64 - k) - 1)]
  omega

/-- Helper: for values whose signed reading lies in `[-2047, 2048]`, the i32
truncation agrees with the signed 64-bit reading. -/
theorem as_i32_eq_sint64 (n : Nat) (hlo : -2047 ≤ sint64 n) (hhi : sint64 n ≤ 2048) :
    as_i32 n = sint64 n := by
  by_cases h64 : n % 2 ^ 64 < 2 ^ 63 <;> by_cases h32 : n % 2 ^ 32 < 2 ^ 31 <;>
    simp only [as_i32, sint64, h64, h32, if_true, if_false] at hlo hhi ⊢ <;> omega

/-- Helper: the bit-list reader returns the low `k` bits of a value written
MSB-first, consuming exactly those bits. -/
theorem listReadBits_natBits (k v : Nat) (rest : List Bool) (hk : k ≤ 64) :
    listReadBits (natBits v k ++ rest) k = (some (v % 2 ^ k), rest) := by
  unfold listReadBits
  rw [Nat.min_eq_left hk]
  rw [listReadBitsAux_natBits k hk 0 v rest (Nat.pos_pow_of_pos _ (by norm_num))]
  simp

/-- Helper: in the 7-bit class the encoder appends `10` and the 7-bit
payload. -/
theorem bits_emitted7 (e : StdEncoder) (t : Nat)
    (hne : as_i32 (wsub64 (wsub64 t e.time) e.delta) ≠ 0)
    (h7 : -63 ≤ as_i32 (wsub64 (wsub64 t e.time) e.delta)
      ∧ as_i32 (wsub64 (wsub64 t e.time) e.delta) ≤ 64) :
    (e.write_next_timestamp t).w.bits
      = e.w.bits
        ++ (natBits 2 2 ++ natBits (u64_of_i32 (as_i32 (wsub64 (wsub64 t e.time) e.delta))) 7) := by
  unfold StdEncoder.write_next_timestamp
  dsimp only
  rw [if_neg hne, if_pos h7]
  simp [BufferedWriter.write_bits]

/-- Helper: the control loop consumes `10` and reports one leading 1. -/
theorem ctrl_one (l : List Bool) :
    StdDecoder.ctrlAux listOps 4 0 (true :: false :: l) = (.ok 1, l) := rfl

/-- Helper: the control loop consumes `110` and reports two leading 1s. -/
theorem ctrl_two (l : List Bool) :
    StdDecoder.ctrlAux listOps 4 0 (true :: true :: false :: l) = (.ok 2, l) := rfl

/-- Helper: the control loop consumes `1110` and reports three leading 1s. -/
theorem ctrl_three (l : List Bool) :
    StdDecoder.ctrlAux listOps 4 0 (true :: true :: true :: false :: l) = (.ok 3, l) := rfl

/-- Helper: casting the signed reading of a `u64` back to `u64` is the
identity. -/
theorem u64_sint (n : Nat) (h : n < 2 ^ 64) : u64_of_i32 (sint64 n) = n := by
  unfold u64_of_i32 sint64
  split <;> omega

/-- Helper: the unsigned values whose signed reading lies in
`[-63, 64] \\ \x7b0\x7d`. -/
theorem sint_range7 (n : Nat) (h : n < 2 ^ 64) (hne : sint64 n ≠ 0)
    (hlo : -63 ≤ sint64 n) (hhi : sint64 n ≤ 64) :
    (1 ≤ n ∧ n ≤ 64) ∨ 2 ^ 64 - 63 ≤ n := by
  unfold sint64 at *
  split at hne <;> omega

/-- Helper: the decoder's sign-extension rule at width 7 recovers the 64-bit
value from its low 7 bits. -/
theorem dec7 (n : Nat) (h : n < 2 ^ 64) (hcls : (1 ≤ n ∧ n ≤ 64) ∨ 2 ^ 64 - 63 ≤ n) :
    (if n % 2 ^ 7 > 1 <<< (7 - 1)
      then (n % 2 ^ 7) ||| (((2 ^ 64 - 1) <<< (7 % 64)) % 2 ^ 64)
      else n % 2 ^ 7) = n := by
  have hmask : ((2 ^ 64 - 1) <<< (7 % 64)) % 2 ^ 64 = 2 ^ 64 - 2 ^ 7 := by
    rw [Nat.shiftLeft_eq]
    norm_num
  have h64 : (1 : Nat) <<< (7 - 1) = 64 := rfl
  rw [hmask, h64]
  by_cases hgt : n % 2 ^ 7 > 64
  · rw [if_pos hgt, or_mask 7 (n % 2 ^ 7) (by omega) (by norm_num)]
    omega
  · rw [if_neg hgt]
    omega

/-- Helper: the unsigned values of the 9-bit class. -/
theorem sint_range9 (n : Nat) (h : n < 2 ^ 64) (hn7 : ¬(-63 ≤ sint64 n ∧ sint64 n ≤ 64))
    (hlo : -255 ≤ sint64 n) (hhi : sint64 n ≤ 256) :
    (65 ≤ n ∧ n ≤ 256) ∨ (2 ^ 64 - 255 ≤ n ∧ n ≤ 2 ^ 64 - 64) := by
  unfold sint64 at *
  by_cases hc : n % 2 ^ 64 < 2 ^ 63 <;> simp only [hc, if_true, if_false] at hn7 hlo hhi <;> omega

/-- Helper: the unsigned values of the 12-bit class. -/
theorem sint_range12 (n : Nat) (h : n < 2 ^ 64) (hn9 : ¬(-255 ≤ sint64 n ∧ sint64 n ≤ 256))
    (hlo : -2047 ≤ sint64 n) (hhi : sint64 n ≤ 2048) :
    (257 ≤ n ∧ n ≤ 2048) ∨ (2 ^ 64 - 2047 ≤ n ∧ n ≤ 2 ^ 64 - 256) := by
  unfold sint64 at *
  by_cases hc : n % 2 ^ 64 < 2 ^ 63 <;> simp only [hc, if_true, if_false] at hn9 hlo hhi <;> omega

/-- Helper: the decoder's sign-extension rule at width 9 recovers the 64-bit
value from its low 9 bits. -/
theorem dec9 (n : Nat) (h : n < 2 ^ 64)
    (hcls : (65 ≤ n ∧ n ≤ 256) ∨ (2 ^ 64 - 255 ≤ n ∧ n ≤ 2 ^ 64 - 64)) :
    (if n % 2 ^ 9 > 1 <<< (9 - 1)
      then (n % 2 ^ 9) ||| (((2 ^ 64 - 1) <<< (9 % 64)) % 2 ^ 64)
      else n % 2 ^ 9) = n := by
  have hmask : ((2 ^ 64 - 1) <<< (9 % 64)) % 2 ^ 64 = 2 ^ 64 - 2 ^ 9 := by
    rw [Nat.shiftLeft_eq]
    norm_num
  have h256 : (1 : Nat) <<< (9 - 1) = 256 := rfl
  rw [hmask, h256]
  by_cases hgt : n % 2 ^ 9 > 256
  · rw [if_pos hgt, or_mask 9 (n % 2 ^ 9) (by omega) (by norm_num)]
    omega
  · rw [if_neg hgt]
    omega

/-- Helper: the decoder's sign-extension rule at width 12 recovers the
64-bit value from its low 12 bits. -/
theorem dec12 (n : Nat) (h : n < 2 ^ 64)
    (hcls : (257 ≤ n ∧ n ≤ 2048) ∨ (2 ^ 64 - 2047 ≤ n ∧ n ≤ 2 ^ 64 - 256)) :
    (if n % 2 ^ 12 > 1 <<< (12 - 1)
      then (n % 2 ^ 12) ||| (((2 ^ 64 - 1) <<< (12 % 64)) % 2 ^ 64)
      else n % 2 ^ 12) = n := by
  have hmask : ((2 ^ 64 - 1) <<< (12 % 64)) % 2 ^ 64 = 2 ^ 64 - 2 ^ 12 := by
    rw [Nat.shiftLeft_eq]
    norm_num
  have h2048 : (1 : Nat) <<< (12 - 1) = 2048 := rfl
  rw [hmask, h2048]
  by_cases hgt : n % 2 ^ 12 > 2048
  · rw [if_pos hgt, or_mask 12 (n % 2 ^ 12) (by omega) (by norm_num)]
    omega
  · rw [if_neg hgt]
    omega

/-- Helper: in the 9-bit class the encoder appends `110` and the 9-bit
payload. -/
theorem bits_emitted9 (e : StdEncoder) (t : Nat)
    (hne : as_i32 (wsub64 (wsub64 t e.time) e.delta) ≠ 0)
    (hn7 : ¬(-63 ≤ as_i32 (wsub64 (wsub64 t e.time) e.delta)
      ∧ as_i32 (wsub64 (wsub64 t e.time) e.delta) ≤ 64))
    (h9 : -255 ≤ as_i32 (wsub64 (wsub64 t e.time) e.delta)
      ∧ as_i32 (wsub64 (wsub64 t e.time) e.delta) ≤ 256) :
    (e.write_next_timestamp t).w.bits
      = e.w.bits
        ++ (natBits 6 3 ++ natBits (u64_of_i32 (as_i32 (wsub64 (wsub64 t e.time) e.delta))) 9) := by
  unfold StdEncoder.write_next_timestamp
  dsimp only
  rw [if_neg hne, if_neg hn7, if_pos h9]
  simp [BufferedWriter.write_bits]

/-- Helper: in the 12-bit class the encoder appends `1110` and the 12-bit
payload. -/
theorem bits_emitted12 (e : StdEncoder) (t : Nat)
    (hne : as_i32 (wsub64 (wsub64 t e.time) e.delta) ≠ 0)
    (hn7 : ¬(-63 ≤ as_i32 (wsub64 (wsub64 t e.time) e.delta)
      ∧ as_i32 (wsub64 (wsub64 t e.time) e.delta) ≤ 64))
    (hn9 : ¬(-255 ≤ as_i32 (wsub64 (wsub64 t e.time) e.delta)
      ∧ as_i32 (wsub64 (wsub64 t e.time) e.delta) ≤ 256))
    (h12 : -2047 ≤ as_i32 (wsub64 (wsub64 t e.time) e.delta)
      ∧ as_i32 (wsub64 (wsub64 t e.time) e.delta) ≤ 2048) :
    (e.write_next_timestamp t).w.bits
      = e.w.bits
        ++ (natBits 14 4
          ++ natBits (u64_of_i32 (as_i32 (wsub64 (wsub64 t e.time) e.delta))) 12) := by
  unfold StdEncoder.write_next_timestamp
  dsimp only
  rw [if_neg hne, if_neg hn7, if_neg hn9, if_pos h12]
  simp [BufferedWriter.write_bits]

/-- C5: the sign-extension rule is exactly inverse to the encoder's low-bit
payloads.  For every encoder state and next timestamp whose signed
delta-of-delta is a non-zero value in `[-2047, 2048]` (so one of the 7-, 9-
or 12-bit classes applies), running `read_next_timestamp` on the emitted
bits from a matching decoder state yields `Ok` with the encoder's new time,
and leaves the decoder's `delta` and `time` equal to the encoder's new
`delta` and `time`, consuming exactly the emitted bits. -/
theorem c5_sign_extension_roundtrip (e : StdEncoder) (t : Nat) (rest : List Bool)
    (d : StdDecoder (List Bool))
    (h1 : e.time < 2 ^ 64) (h2 : e.delta < 2 ^ 64) (h3 : t < 2 ^ 64)
    (hdt : d.time = e.time) (hdd : d.delta = e.delta)
    (hr : d.r = ((e.write_next_timestamp t).w.bits).drop e.w.bits.length ++ rest)
    (hne : sint64 (wsub64 (wsub64 t e.time) e.delta) ≠ 0)
    (hlo : -2047 ≤ sint64 (wsub64 (wsub64 t e.time) e.delta))
    (hhi : sint64 (wsub64 (wsub64 t e.time) e.delta) ≤ 2048) :
    d.read_next_timestamp listOps
      = (.ok (e.write_next_timestamp t).time,
         { d with delta := (e.write_next_timestamp t).delta,
                  time := (e.write_next_timestamp t).time,
                  r := rest }) := by
  obtain ⟨dt, dd, dv, dx, dl, dz, df, ddn, dr⟩ := d
  simp only at hdt hdd hr
  subst hdt hdd hr
  have hDlt : wsub64 (wsub64 t e.time) e.delta < 2 ^ 64 := by unfold wsub64; omega
  have hD := as_i32_eq_sint64 (wsub64 (wsub64 t e.time) e.delta) (by omega) (by omega)
  have hdelta : wadd64 e.delta (wsub64 (wsub64 t e.time) e.delta) = wsub64 t e.time := by
    unfold wadd64 wsub64
    omega
  have htime : wadd64 e.time (wsub64 t e.time) = t := by
    unfold wadd64 wsub64
    omega
  have hwt : (e.write_next_timestamp t).time = t := rfl
  have hwd : (e.write_next_timestamp t).delta = wsub64 t e.time := rfl
  by_cases h7 : -63 ≤ sint64 (wsub64 (wsub64 t e.time) e.delta)
      ∧ sint64 (wsub64 (wsub64 t e.time) e.delta) ≤ 64
  · have hb := bits_emitted7 e t (by rw [hD]; exact hne) (by rw [hD]; exact h7)
    rw [hb, List.drop_left] at *
    rw [hD] at *
    rw [show natBits 2 2 = [true, false] from rfl]
    unfold StdDecoder.read_next_timestamp
    dsimp only
    rw [show ([true, false] ++ natBits (u64_of_i32 (sint64 (wsub64 (wsub64 t e.time) e.delta))) 7
          ++ rest)
        = (true :: false :: (natBits (u64_of_i32 (sint64 (wsub64 (wsub64 t e.time) e.delta))) 7
          ++ rest)) by simp]
    rw [ctrl_one]
    dsimp only
    dsimp only [listOps]
    rw [show (if (1 : Nat) = 1 then (7 : Nat) else if (1 : Nat) = 2 then 9 else 12) = 7 from rfl]
    rw [listReadBits_natBits 7 _ rest (by norm_num)]
    dsimp only
    rw [u64_sint _ hDlt]
    rw [dec7 _ hDlt (sint_range7 _ hDlt hne h7.1 h7.2)]
    rw [hdelta, htime, hwt, hwd]
  · by_cases h9 : -255 ≤ sint64 (wsub64 (wsub64 t e.time) e.delta)
        ∧ sint64 (wsub64 (wsub64 t e.time) e.delta) ≤ 256
    · have hb := bits_emitted9 e t (by rw [hD]; exact hne) (by rw [hD]; exact h7)
        (by rw [hD]; exact h9)
      rw [hb, List.drop_left] at *
      rw [hD] at *
      rw [show natBits 6 3 = [true, true, false] from rfl]
      unfold StdDecoder.read_next_timestamp
      dsimp only
      rw [show ([true, true, false]
            ++ natBits (u64_of_i32 (sint64 (wsub64 (wsub64 t e.time) e.delta))) 9 ++ rest)
          = (true :: true :: false
            :: (natBits (u64_of_i32 (sint64 (wsub64 (wsub64 t e.time) e.delta))) 9
              ++ rest)) by simp]
      rw [ctrl_two]
      dsimp only
      dsimp only [listOps]
      rw [show (if (2 : Nat) = 1 then (7 : Nat) else if (2 : Nat) = 2 then 9 else 12) = 9 from rfl]
      rw [listReadBits_natBits 9 _ rest (by norm_num)]
      dsimp only
      rw [u64_sint _ hDlt]
      rw [dec9 _ hDlt (sint_range9 _ hDlt h7 h9.1 h9.2)]
      rw [hdelta, htime, hwt, hwd]
    · have hb := bits_emitted12 e t (by rw [hD]; exact hne) (by rw [hD]; exact h7)
        (by rw [hD]; exact h9) (by rw [hD]; exact ⟨hlo, hhi⟩)
      rw [hb, List.drop_left] at *
      rw [hD] at *
      rw [show natBits 14 4 = [true, true, true, false] from rfl]
      unfold StdDecoder.read_next_timestamp
      dsimp only
      rw [show ([true, true, true, false]
            ++ natBits (u64_of_i32 (sint64 (wsub64 (wsub64 t e.time) e.delta))) 12 ++ rest)
          = (true :: true :: true :: false
            :: (natBits (u64_of_i32 (sint64 (wsub64 (wsub64 t e.time) e.delta))) 12
              ++ rest)) by simp]
      rw [ctrl_three]
      dsimp only
      dsimp only [listOps]
      rw [show (if (3 : Nat) = 1 then (7 : Nat) else if (3 : Nat) = 2 then 9 else 12) = 12
        from rfl]
      rw [listReadBits_natBits 12 _ rest (by norm_num)]
      dsimp only
      rw [u64_sint _ hDlt]
      rw [dec12 _ hDlt (sint_range12 _ hDlt h9 hlo hhi)]
      rw [hdelta, htime, hwt, hwd]

/-- Witness for C5: with base state at 0 and next timestamp 100 (a 9-bit
class delta-of-delta), the decoder recovers time 100 and delta 100. -/
theorem c5_witness :
    StdDecoder.read_next_timestamp listOps
        ⟨0, 0, 0, 0, 0, 0, true, false,
          (((StdEncoder.new 0).write_next_timestamp 100).w.bits).drop
            (StdEncoder.new 0).w.bits.length ++ []⟩
      = (.ok ((StdEncoder.new 0).write_next_timestamp 100).time,
         ⟨((StdEncoder.new 0).write_next_timestamp 100).time,
          ((StdEncoder.new 0).write_next_timestamp 100).delta,
          0, 0, 0, 0, true, false, []⟩) :=
  c5_sign_extension_roundtrip (StdEncoder.new 0) 100 []
    ⟨0, 0, 0, 0, 0, 0, true, false,
      (((StdEncoder.new 0).write_next_timestamp 100).w.bits).drop
        (StdEncoder.new 0).w.bits.length ++ []⟩
    (by decide) (by decide) (by decide) rfl rfl rfl (by decide) (by decide) (by decide)

/-- C6: corruption detection on the first call.  For any input of a readable
8-byte header followed by five bytes whose leading bit is 1 but whose 36-bit
word (the word `read_bits(36)` returns from the post-header position) differs
from the end marker, the first `next()` returns `InvalidEndOfStream`. -/
theorem c6_invalid_end_of_stream (h0 h1 h2 h3 h4 h5 h6 h7 b8 b9 b10 b11 b12 : Nat)
    (_hby : h0 < 256 ∧ h1 < 256 ∧ h2 < 256 ∧ h3 < 256 ∧ h4 < 256 ∧ h5 < 256 ∧ h6 < 256
      ∧ h7 < 256 ∧ b8 < 256 ∧ b9 < 256 ∧ b10 < 256 ∧ b11 < 256 ∧ b12 < 256)
    (hb : ¬(b8 &&& 128 = 0))
    (hw : (BufferedReader.read_bits ⟨[h0, h1, h2, h3, h4, h5, h6, h7, b8, b9, b10, b11, b12], 7, 8⟩
      36).1 ≠ some END_MARKER) :
    ((StdDecoder.new (BufferedReader.new
        [h0, h1, h2, h3, h4, h5, h6, h7, b8, b9, b10, b11, b12])).next bufferedOps).1
      = .error .invalidEndOfStream := by
  have hb128 : ¬(b8 &&& 1 <<< (7 - 0) = 0) := hb
  obtain ⟨W, hW⟩ : ∃ w,
      BufferedReader.read_bits ⟨[h0, h1, h2, h3, h4, h5, h6, h7, b8, b9, b10, b11, b12], 0, 0⟩ 64
        = (some w, ⟨[h0, h1, h2, h3, h4, h5, h6, h7, b8, b9, b10, b11, b12], 7, 8⟩) := ⟨_, rfl⟩
  obtain ⟨W36, hW36⟩ : ∃ w,
      BufferedReader.read_bits ⟨[h0, h1, h2, h3, h4, h5, h6, h7, b8, b9, b10, b11, b12], 7, 8⟩ 36
        = (some w, ⟨[h0, h1, h2, h3, h4, h5, h6, h7, b8, b9, b10, b11, b12], 12, 4⟩) := ⟨_, rfl⟩
  rw [hW36] at hw
  have hw' : ¬(W36 = END_MARKER) := by simpa using hw
  have hb1 : BufferedReader.read_bit
      ⟨[h0, h1, h2, h3, h4, h5, h6, h7, b8, b9, b10, b11, b12], 7, 8⟩
        = (some (if b8 &&& 1 <<< (7 - 0) = 0 then Bit.zero else Bit.one),
           ⟨[h0, h1, h2, h3, h4, h5, h6, h7, b8, b9, b10, b11, b12], 8, 1⟩) := rfl
  rw [if_neg hb128] at hb1
  have hread1 : BufferedReader.read_bits
      ⟨[h0, h1, h2, h3, h4, h5, h6, h7, b8, b9, b10, b11, b12], 7, 8⟩ 1
        = (some (((0 : Nat) <<< 1) % 2 ^ 64
            ||| (if b8 &&& 1 <<< (7 - 0) = 0 then Bit.zero else Bit.one).to_u64),
           ⟨[h0, h1, h2, h3, h4, h5, h6, h7, b8, b9, b10, b11, b12], 8, 1⟩) := rfl
  rw [if_neg hb128] at hread1
  rw [show ((0 : Nat) <<< 1) % 2 ^ 64 ||| Bit.one.to_u64 = 1 from rfl] at hread1
  have hpeek : BufferedReader.peak_bits
      ⟨[h0, h1, h2, h3, h4, h5, h6, h7, b8, b9, b10, b11, b12], 7, 8⟩ 1
        = (some 1, ⟨[h0, h1, h2, h3, h4, h5, h6, h7, b8, b9, b10, b11, b12], 7, 8⟩) := by
    unfold BufferedReader.peak_bits
    rw [hread1]
  unfold StdDecoder.next
  rw [show (StdDecoder.new (BufferedReader.new
      [h0, h1, h2, h3, h4, h5, h6, h7, b8, b9, b10, b11, b12]) : StdDecoder BufferedReader)
    = ⟨0, 0, 0, 0, 0, 0, true, false,
        ⟨[h0, h1, h2, h3, h4, h5, h6, h7, b8, b9, b10, b11, b12], 0, 0⟩⟩ from rfl]
  dsimp only
  unfold StdDecoder.read_first_timestamp StdDecoder.read_initial_timestamp
  dsimp only [bufferedOps]
  rw [hW]
  dsimp only
  rw [hpeek]
  dsimp only
  rw [if_pos rfl]
  rw [show END_MARKER_LEN = 36 from rfl, hW36]
  dsimp only
  rw [if_neg hw']
  simp

/-- Witness for C6: a valid header followed by the byte 255 and four zero
bytes peeks a 1 bit and reads the 36-bit word `0xFF0000000`, which is not
the end marker `0xF00000000`, so `next()` returns `InvalidEndOfStream`. -/
theorem c6_witness :
    ((StdDecoder.new (BufferedReader.new
        [0, 0, 0, 0, 88, 89, 157, 151, 255, 0, 0, 0, 0])).next bufferedOps).1
      = .error .invalidEndOfStream :=
  c6_invalid_end_of_stream 0 0 0 0 88 89 157 151 255 0 0 0 0
    (by decide) (by decide) (by decide)

/-- Helper: state facts for one `read_bit` call — the intra-byte position
stays at most 8, the position never moves backwards, the read succeeds
exactly when a bit remains, success advances the bit position by one, and
with a bit remaining the position strictly advances. -/
theorem read_bit_facts (r : BufferedReader) (hpos : r.pos ≤ 8) :
    ((r.read_bit).2.pos ≤ 8)
    ∧ (r.index < (r.read_bit).2.index
        ∨ (r.index = (r.read_bit).2.index ∧ r.pos ≤ (r.read_bit).2.pos))
    ∧ ((r.read_bit).1.isSome ↔ 8 * r.index + r.pos < 8 * r.bytes.length)
    ∧ ((r.read_bit).1.isSome →
        8 * (r.read_bit).2.index + (r.read_bit).2.pos = 8 * r.index + r.pos + 1)
    ∧ (8 * r.index + r.pos < 8 * r.bytes.length →
        (r.index < (r.read_bit).2.index
          ∨ (r.index = (r.read_bit).2.index ∧ r.pos < (r.read_bit).2.pos))) := by
  obtain ⟨bs, i, p⟩ := r
  simp only at hpos ⊢
  unfold BufferedReader.read_bit BufferedReader.get_byte
  by_cases hp : p = 8
  · subst hp
    simp only [if_pos rfl, ite_true]
    try dsimp only
    rcases hg : bs.get? (i + 1) with _ | b
    · have hn := List.get?_eq_none.mp hg
      simp only [hg]
      try dsimp only
      refine ⟨by (try dsimp only); omega, by (try dsimp only); (try simp); (try omega), by (try dsimp only); simp; omega, by (try dsimp only); simp, fun hlt => by (try dsimp only); (try simp); (try omega)⟩
    · have hlen : i + 1 < bs.length := by
        by_contra hc
        rw [List.get?_eq_none.mpr (by omega)] at hg
        exact Option.noConfusion hg
      simp only [hg]
      try dsimp only
      refine ⟨by (try dsimp only); omega, by (try dsimp only); (try simp); (try omega), by (try dsimp only); simp; omega, fun _ => by (try dsimp only); omega, fun hlt => by (try dsimp only); (try simp); (try omega)⟩
  · simp only [if_neg hp]
    try dsimp only
    rcases hg : bs.get? i with _ | b
    · have hn := List.get?_eq_none.mp hg
      simp only [hg]
      try dsimp only
      refine ⟨by (try dsimp only); omega, by (try dsimp only); (try simp); (try omega), by (try dsimp only); simp; omega, by (try dsimp only); simp, fun hlt => by (try dsimp only); (try simp); (try omega)⟩
    · have hlen : i < bs.length := by
        by_contra hc
        rw [List.get?_eq_none.mpr (by omega)] at hg
        exact Option.noConfusion hg
      simp only [hg]
      try dsimp only
      refine ⟨by (try dsimp only); omega, by (try dsimp only); (try simp); (try omega), by (try dsimp only); simp; omega, fun _ => by (try dsimp only); omega, fun hlt => by (try dsimp only); (try simp); (try omega)⟩

/-- Helper: state facts for one `read_byte` call — position bound, forward
motion, success exactly when eight bits remain, success advances by eight
bits, and strict advancement whenever any bit remains. -/
theorem read_byte_facts (r : BufferedReader) (hpos : r.pos ≤ 8) :
    ((r.read_byte).2.pos ≤ 8)
    ∧ (r.index < (r.read_byte).2.index
        ∨ (r.index = (r.read_byte).2.index ∧ r.pos ≤ (r.read_byte).2.pos))
    ∧ ((r.read_byte).1.isSome ↔ 8 * r.index + r.pos + 8 ≤ 8 * r.bytes.length)
    ∧ ((r.read_byte).1.isSome →
        8 * (r.read_byte).2.index + (r.read_byte).2.pos = 8 * r.index + r.pos + 8)
    ∧ (8 * r.index + r.pos < 8 * r.bytes.length →
        (r.index < (r.read_byte).2.index
          ∨ (r.index = (r.read_byte).2.index ∧ r.pos < (r.read_byte).2.pos))) := by
  obtain ⟨bs, i, p⟩ := r
  simp only at hpos ⊢
  unfold BufferedReader.read_byte BufferedReader.get_byte
  by_cases hp0 : p = 0
  · subst hp0
    simp only [if_pos rfl, ite_true]
    try dsimp only
    have hiff : (bs.get? i).isSome ↔ i < bs.length := by
      rcases hg : bs.get? i with _ | b
      · have hn := List.get?_eq_none.mp hg
        simp
        omega
      · have hlen : i < bs.length := by
          by_contra hc
          rw [List.get?_eq_none.mpr (by omega)] at hg
          exact Option.noConfusion hg
        simp [hlen]
    refine ⟨?_, ?_, by rw [hiff]; omega, fun _ => ?_, fun hlt => ?_⟩ <;>
      first | omega | simp | (simp; omega)
  · by_cases hp8 : p = 8
    · subst hp8
      simp only [if_neg hp0, if_pos rfl, ite_true]
      try dsimp only
      have hiff : (bs.get? (i + 1)).isSome ↔ i + 1 < bs.length := by
        rcases hg : bs.get? (i + 1) with _ | b
        · have hn := List.get?_eq_none.mp hg
          simp
          omega
        · have hlen : i + 1 < bs.length := by
            by_contra hc
            rw [List.get?_eq_none.mpr (by omega)] at hg
            exact Option.noConfusion hg
          simp [hlen]
      refine ⟨?_, ?_, by rw [hiff]; omega, fun _ => ?_, fun hlt => ?_⟩ <;>
        first | omega | simp | (simp; omega)
    · simp only [if_neg hp0, if_neg hp8]
      try dsimp only
      rcases hg : bs.get? i with _ | b
      · have hn := List.get?_eq_none.mp hg
        simp only [hg]
        try dsimp only
        refine ⟨?_, ?_, by simp; omega, ?_, fun hlt => ?_⟩ <;>
          first | omega | simp | (simp; omega)
      · have hlen : i < bs.length := by
          by_contra hc
          rw [List.get?_eq_none.mpr (by omega)] at hg
          exact Option.noConfusion hg
        simp only [hg]
        try dsimp only
        rcases hg2 : bs.get? (i + 1) with _ | b2
        · have hn2 := List.get?_eq_none.mp hg2
          simp only [hg2]
          try dsimp only
          refine ⟨?_, ?_, by simp; omega, ?_, fun hlt => ?_⟩ <;>
          first | omega | simp | (simp; omega)
        · have hlen2 : i + 1 < bs.length := by
            by_contra hc
            rw [List.get?_eq_none.mpr (by omega)] at hg2
            exact Option.noConfusion hg2
          simp only [hg2]
          try dsimp only
          refine ⟨?_, ?_, by simp; omega, fun _ => ?_, fun hlt => ?_⟩ <;>
            first | omega | simp | (simp; omega)

/-- Helper: state facts for the byte loop of `read_bits`. -/
theorem readBytesAux_facts (k : Nat) : ∀ (bits : Nat) (r : BufferedReader), r.pos ≤ 8 →
    ((BufferedReader.readBytesAux k bits r).2.pos ≤ 8)
    ∧ (r.index < (BufferedReader.readBytesAux k bits r).2.index
        ∨ (r.index = (BufferedReader.readBytesAux k bits r).2.index
          ∧ r.pos ≤ (BufferedReader.readBytesAux k bits r).2.pos))
    ∧ (1 ≤ k → 8 * r.bytes.length < 8 * r.index + r.pos + 8 * k →
        (BufferedReader.readBytesAux k bits r).1 = none)
    ∧ ((BufferedReader.readBytesAux k bits r).1.isSome →
        8 * (BufferedReader.readBytesAux k bits r).2.index
          + (BufferedReader.readBytesAux k bits r).2.pos = 8 * r.index + r.pos + 8 * k)
    ∧ (1 ≤ k → 8 * r.index + r.pos < 8 * r.bytes.length →
        (r.index < (BufferedReader.readBytesAux k bits r).2.index
          ∨ (r.index = (BufferedReader.readBytesAux k bits r).2.index
            ∧ r.pos < (BufferedReader.readBytesAux k bits r).2.pos))) := by
  induction k with
  | zero =>
    intro bits r hpos
    simp only [BufferedReader.readBytesAux]
    exact ⟨hpos, Or.inr ⟨trivial, le_refl _⟩, fun h1 _ => absurd h1 (by omega), fun _ => by omega,
      fun h1 _ => absurd h1 (by omega)⟩
  | succ m ih =>
    intro bits r hpos
    have hf := read_byte_facts r hpos
    have hbytes := read_byte_bytes r
    unfold BufferedReader.readBytesAux
    rcases h : r.read_byte with ⟨o, r'⟩
    rw [h] at hf hbytes
    simp only at hf hbytes
    rcases o with _ | byte
    · simp only
      exact ⟨hf.1, hf.2.1, fun _ _ => trivial, fun hs => by simp at hs,
        fun _ hrem => hf.2.2.2.2 hrem⟩
    · simp only
      have hih := ih (((bits <<< 8) % 2 ^ 64) ||| byte) r' hf.1
      have hsome : (some byte).isSome = true := rfl
      have hm := hf.2.2.2.1 hsome
      have hle := hf.2.2.1.mp hsome
      have hlen : r'.bytes.length = r.bytes.length := by rw [hbytes]
      refine ⟨hih.1, ?_, fun _ hc => ?_, fun hs => ?_, fun _ hrem => ?_⟩
      · rcases hf.2.1 with h1 | ⟨h1, h2⟩ <;> rcases hih.2.1 with h3 | ⟨h3, h4⟩ <;> omega
      · exact hih.2.2.1 (by omega) (by omega)
      · have := hih.2.2.2.1 hs
        omega
      · have hstrict := hf.2.2.2.2 hrem
        rcases hstrict with h1 | ⟨h1, h2⟩ <;> rcases hih.2.1 with h3 | ⟨h3, h4⟩ <;> omega

/-- Helper: state facts for the bit loop of `read_bits`. -/
theorem readBitsAux_facts (k : Nat) : ∀ (bits : Nat) (r : BufferedReader), r.pos ≤ 8 →
    ((BufferedReader.readBitsAux k bits r).2.pos ≤ 8)
    ∧ (r.index < (BufferedReader.readBitsAux k bits r).2.index
        ∨ (r.index = (BufferedReader.readBitsAux k bits r).2.index
          ∧ r.pos ≤ (BufferedReader.readBitsAux k bits r).2.pos))
    ∧ (1 ≤ k → 8 * r.bytes.length < 8 * r.index + r.pos + k →
        (BufferedReader.readBitsAux k bits r).1 = none)
    ∧ ((BufferedReader.readBitsAux k bits r).1.isSome →
        8 * (BufferedReader.readBitsAux k bits r).2.index
          + (BufferedReader.readBitsAux k bits r).2.pos = 8 * r.index + r.pos + k)
    ∧ (1 ≤ k → 8 * r.index + r.pos < 8 * r.bytes.length →
        (r.index < (BufferedReader.readBitsAux k bits r).2.index
          ∨ (r.index = (BufferedReader.readBitsAux k bits r).2.index
            ∧ r.pos < (BufferedReader.readBitsAux k bits r).2.pos))) := by
  induction k with
  | zero =>
    intro bits r hpos
    simp only [BufferedReader.readBitsAux]
    exact ⟨hpos, Or.inr ⟨trivial, le_refl _⟩, fun h1 _ => absurd h1 (by omega), fun _ => by omega,
      fun h1 _ => absurd h1 (by omega)⟩
  | succ m ih =>
    intro bits r hpos
    have hf := read_bit_facts r hpos
    have hbytes := read_bit_bytes r
    unfold BufferedReader.readBitsAux
    rcases h : r.read_bit with ⟨o, r'⟩
    rw [h] at hf hbytes
    simp only at hf hbytes
    rcases o with _ | bit
    · simp only
      have hiff := hf.2.2.1
      simp only [Option.isSome_none, Bool.false_eq_true, false_iff] at hiff
      refine ⟨hf.1, hf.2.1, fun _ hc => trivial, fun hs => by simp at hs,
        fun _ hrem => hf.2.2.2.2 hrem⟩
    · simp only
      have hih := ih (((bits <<< 1) % 2 ^ 64) ||| bit.to_u64) r' hf.1
      have hsome : (some bit).isSome = true := rfl
      have hm := hf.2.2.2.1 hsome
      have hlt := hf.2.2.1.mp hsome
      have hlen : r'.bytes.length = r.bytes.length := by rw [hbytes]
      refine ⟨hih.1, ?_, fun _ hc => ?_, fun hs => ?_, fun _ hrem => ?_⟩
      · rcases hf.2.1 with h1 | ⟨h1, h2⟩ <;> rcases hih.2.1 with h3 | ⟨h3, h4⟩ <;> omega
      · exact hih.2.2.1 (by omega) (by omega)
      · have := hih.2.2.2.1 hs
        omega
      · have hstrict := hf.2.2.2.2 hrem
        rcases hstrict with h1 | ⟨h1, h2⟩ <;> rcases hih.2.1 with h3 | ⟨h3, h4⟩ <;> omega

/-- C10 (amended): failed reads are not atomic.  For every well-formed
reader state holding at least one remaining bit but fewer than `min(n, 64)`
remaining bits, `read_bits(n)` returns the EOF error yet leaves the byte
index and/or intra-byte position strictly advanced past their pre-call
values. -/
theorem c10_read_bits_eof_advances (r : BufferedReader) (n : Nat) (hpos : r.pos ≤ 8)
    (hrem : 8 * r.index + r.pos < 8 * r.bytes.length)
    (hlt : 8 * r.bytes.length < 8 * r.index + r.pos + min n 64) :
    (r.read_bits n).1 = none
    ∧ (r.index < (r.read_bits n).2.index
        ∨ (r.index = (r.read_bits n).2.index ∧ r.pos < (r.read_bits n).2.pos)) := by
  have hsplit := Nat.div_add_mod (min n 64) 8
  unfold BufferedReader.read_bits
  dsimp only
  have hBf := readBytesAux_facts (min n 64 / 8) 0 r hpos
  have hBby := readBytesAux_bytes (min n 64 / 8) 0 r
  rcases hB : BufferedReader.readBytesAux (min n 64 / 8) 0 r with ⟨oB, rB⟩
  rw [hB] at hBf hBby
  simp only at hBf hBby
  rcases oB with _ | bits
  · -- byte loop already failed; its failure requires at least one byte iteration
    refine ⟨rfl, ?_⟩
    have hk : 1 ≤ min n 64 / 8 := by
      by_contra hk0
      have hz : min n 64 / 8 = 0 := by omega
      rw [hz] at hB
      simp [BufferedReader.readBytesAux] at hB
    exact hBf.2.2.2.2 hk hrem
  · -- byte loop succeeded; the bit loop must fail
    dsimp only
    have hmB := hBf.2.2.2.1 rfl
    have hmB_le : 8 * rB.index + rB.pos ≤ 8 * r.bytes.length := by
      rcases Nat.eq_zero_or_pos (min n 64 / 8) with hz | hk
      · omega
      · by_contra hgt
        exact Option.noConfusion (hBf.2.2.1 hk (by omega))
    have hkb : 1 ≤ min n 64 % 8 := by omega
    have hbf := readBitsAux_facts (min n 64 % 8) bits rB hBf.1
    have hlen : rB.bytes.length = r.bytes.length := by rw [hBby]
    refine ⟨hbf.2.2.1 hkb (by omega), ?_⟩
    rcases Nat.eq_zero_or_pos (min n 64 / 8) with hz | hk
    · rw [hz] at hB
      simp [BufferedReader.readBytesAux] at hB
      obtain ⟨hbits, hrB⟩ := hB
      subst hrB
      exact hbf.2.2.2.2 hkb (by omega)
    · have hstrict := hBf.2.2.2.2 hk hrem
      have hle := hbf.2.1
      rcases hstrict with h1 | ⟨h1, h2⟩ <;> rcases hle with h3 | ⟨h3, h4⟩ <;> omega

/-- Witness for C10: on a one-byte buffer at bit position 3 (five bits
remain), an 8-bit read returns EOF with the byte index advanced to 1. -/
theorem c10_witness :
    (BufferedReader.read_bits ⟨[7], 0, 3⟩ 8).1 = none
    ∧ ((0 : Nat) < (BufferedReader.read_bits ⟨[7], 0, 3⟩ 8).2.index
        ∨ ((0 : Nat) = (BufferedReader.read_bits ⟨[7], 0, 3⟩ 8).2.index
          ∧ (3 : Nat) < (BufferedReader.read_bits ⟨[7], 0, 3⟩ 8).2.pos)) :=
  c10_read_bits_eof_advances ⟨[7], 0, 3⟩ 8 (by decide) (by decide) (by decide)

end Tsz
